import Mathlib

/-!
Verification of the `cartesian` library (point arithmetic, Euclidean and
periodic-boundary distances, and multi-point re-imaging) against its
natural-language specification.

Shallow embedding conventions:
* A Cartesian point (`Cartesian1D/2D/3D`, abstractly `CartesianND`) is a
  `List ℚ` of its coordinates; `n_dims` is the list length and
  `coordinates` is the list itself.  Machine doubles are modelled as exact
  rationals.
* The side lengths of a `PeriodicBoxSidesND` are likewise a `List ℚ`.
* Python's two failure channels are modelled explicitly: the special value
  `NotImplemented` and raised exceptions (`RuntimeError`, `ValueError`,
  `TypeError`).  A call that can produce either yields a `PyResult`.
* `math.sqrt` is the one operation with no rational counterpart; the
  distance wrappers take the square-root function as an explicit parameter,
  so every statement proved about them holds for the real `math.sqrt`.
-/

namespace Cartesian

/-- A raised Python exception, as the functions under study can produce them.
`tooFarError` models the `RuntimeError` raised by
`_translate_point_near_origin`, whose message interpolates the offending
(anchor-relative) point, the box, the coordinate index and the shift count;
the constructor carries those four diagnostics directly. -/
inductive PyErr where
  | runtimeError (msg : String)
  | valueError (msg : String)
  | typeError
  | tooFarError (point : List ℚ) (box : List ℚ) (i_coord : ℕ) (n_shifts : ℤ)
  deriving DecidableEq, Repr

/-- Outcome of a Python call: a returned value, the special value
`NotImplemented`, or a raised exception. -/
inductive PyResult (α : Type) where
  | ok (val : α)
  | notImplemented
  | raised (e : PyErr)
  deriving DecidableEq, Repr

/-! ### `point.py`

`Cartesian1D/2D/3D.__mul__` multiplies every coordinate by a float scalar
(after an `isinstance(other, float)` check, which a scalar argument always
passes); `__rmul__` delegates to `__mul__`.  `__sub__` subtracts two
equal-dimension points coordinate-wise.  `CartesianND.origin(n)` is the
all-zero point of dimension `n`. -/

/-- `Cartesian{1,2,3}D.__mul__`: elementwise scaling by a float scalar.
The body performs no other check, so for a float scalar it always returns
a point. -/
def cartesian_mul (p : List ℚ) (other : ℚ) : PyResult (List ℚ) :=
  .ok (p.map (fun coord => other * coord))

/-- `Cartesian{1,2,3}D.__rmul__`: delegates to `__mul__`. -/
def cartesian_rmul (p : List ℚ) (other : ℚ) : PyResult (List ℚ) :=
  cartesian_mul p other

/-- `Cartesian{1,2,3}D.__sub__` on points of equal dimension:
coordinate-wise difference. -/
def point_sub (p other : List ℚ) : List ℚ :=
  List.zipWith (fun a b => a - b) p other

/-! ### `periodic_box_sides.py` -/

/-- `PeriodicBoxSidesND.__init__`: stores the supplied side lengths, then
raises `ValueError` if any of them is `<= 0`. -/
def PeriodicBoxSidesND_init (coords : List ℚ) : Except PyErr (List ℚ) :=
  if coords.any (fun coord => coord ≤ 0) then
    .error (.valueError "All side lengths in the periodic box must be positive.")
  else
    .ok coords

/-! ### `measure.py` -/

/-- `math.copysign(1, x)`: `1` with the sign of `x` (rationals have no
negative zero, so the sign of `0` is `+`). -/
def copysign_one (x : ℚ) : ℚ := if x < 0 then -1 else 1

/-- `_periodic_modulus_pairdist` (the per-axis `minimum_image` reduction):
if `2 * |pair_separation| > sidelength`, subtract
`copysign(1, pair_separation) * ceil(|pair_separation|/sidelength - 0.5) *
sidelength`; otherwise return the separation unchanged. -/
def periodic_modulus_pairdist (pair_separation sidelength : ℚ) : ℚ :=
  let abs_pair_separation := |pair_separation|
  if 2 * abs_pair_separation > sidelength then
    let sign := copysign_one pair_separation
    let n_shifts : ℤ := ⌈abs_pair_separation / sidelength - 1 / 2⌉
    let total_position_shift := sign * n_shifts * sidelength
    pair_separation - total_position_shift
  else
    pair_separation

/-- `euclidean_distance_squared`: `NotImplemented` on dimension mismatch,
else the sum of squared coordinate differences. -/
def euclidean_distance_squared (point0 point1 : List ℚ) : PyResult ℚ :=
  if point0.length ≠ point1.length then
    .notImplemented
  else
    .ok (((point0.zip point1).map (fun cc => (cc.1 - cc.2) ^ 2)).sum)

/-- `euclidean_distance`: propagates `NotImplemented` from the squared
distance, else takes `math.sqrt` (passed in as `sqrt`). -/
def euclidean_distance (sqrt : ℚ → ℚ) (point0 point1 : List ℚ) :
    PyResult ℚ :=
  match euclidean_distance_squared point0 point1 with
  | .notImplemented => .notImplemented
  | .ok d => .ok (sqrt d)
  | .raised e => .raised e

/-- The message of the `RuntimeError` raised on a point/box dimension
mismatch. -/
def box_dims_err_msg : String :=
  "The points and the box must have the same number of dimensions."

/-- `periodic_euclidean_distance_squared`: `NotImplemented` if the two
points disagree in dimension; `RuntimeError` if the points disagree with
the box; else the sum over axes of the squared minimum-image residual. -/
def periodic_euclidean_distance_squared (point0 point1 box : List ℚ) :
    PyResult ℚ :=
  if point0.length ≠ point1.length then
    .notImplemented
  else if point0.length ≠ box.length then
    .raised (.runtimeError box_dims_err_msg)
  else
    .ok (((point0.zip (point1.zip box)).map
      (fun cc => (periodic_modulus_pairdist (cc.2.1 - cc.1) cc.2.2) ^ 2)).sum)

/-- `periodic_euclidean_distance`: propagates `NotImplemented` (and any
raised error) from the squared distance, else takes `math.sqrt`. -/
def periodic_euclidean_distance (sqrt : ℚ → ℚ) (point0 point1 box : List ℚ) :
    PyResult ℚ :=
  match periodic_euclidean_distance_squared point0 point1 box with
  | .notImplemented => .notImplemented
  | .ok d => .ok (sqrt d)
  | .raised e => .raised e

/-- `approx_eq`: compares the free-space squared distance strictly against
`tolerance ** 2`.  When the squared distance is the `NotImplemented`
object, the Python comparison `NotImplemented < tol_sq` raises
`TypeError`. -/
def approx_eq (point0 point1 : List ℚ) (tolerance : ℚ) : PyResult Bool :=
  match euclidean_distance_squared point0 point1 with
  | .ok dist_sq => .ok (decide (dist_sq < tolerance ^ 2))
  | .notImplemented => .raised .typeError
  | .raised e => .raised e

/-- `periodic_approx_eq`: compares the periodic squared distance strictly
against `tolerance ** 2`, with the same `TypeError` behaviour on
`NotImplemented`. -/
def periodic_approx_eq (point0 point1 box : List ℚ) (tolerance : ℚ) :
    PyResult Bool :=
  match periodic_euclidean_distance_squared point0 point1 box with
  | .ok dist_sq => .ok (decide (dist_sq < tolerance ^ 2))
  | .notImplemented => .raised .typeError
  | .raised e => .raised e

/-! ### `operations.py` -/

/-- `_number_of_box_shifts`: the signed whole-cell shift count
`sign(sep) * ceil(|sep|/side - 0.5)` when `2 * |sep| > side`, else `0`. -/
def number_of_box_shifts (pair_separation sidelength : ℚ) : ℤ :=
  let abs_pair_separation := |pair_separation|
  if 2 * abs_pair_separation > sidelength then
    (if pair_separation < 0 then (-1 : ℤ) else 1) *
      ⌈abs_pair_separation / sidelength - 1 / 2⌉
  else
    0

/-- The coordinate loop of `_translate_point_near_origin`: iterate over
`enumerate(zip(point.coordinates, box.coordinates))`; in strict mode raise
the diagnostic `RuntimeError` as soon as `abs(n_shifts) > 1`, otherwise
record `coord - n_shifts * sidelen`.  `point` and `box` are the values
interpolated into the raised message. -/
def translate_coords (err_if_too_far : Bool) (point box : List ℚ) :
    ℕ → List ℚ → List ℚ → Except PyErr (List ℚ)
  | _, [], _ => .ok []
  | _, _ :: _, [] => .ok []
  | i_coord, coord :: cs, sidelen :: ss =>
    let n_shifts := number_of_box_shifts coord sidelen
    if err_if_too_far ∧ 1 < |n_shifts| then
      .error (.tooFarError point box i_coord n_shifts)
    else
      match translate_coords err_if_too_far point box (i_coord + 1) cs ss with
      | .error e => .error e
      | .ok rest => .ok ((coord - (n_shifts : ℚ) * sidelen) :: rest)

/-- `_translate_point_near_origin`: preallocates `[0] * point.n_dims`, then
fills the entries reached by `zip(point.coordinates, box.coordinates)`;
entries past the zip keep their initial `0`. -/
def translate_point_near_origin (point box : List ℚ)
    (err_if_too_far : Bool) : Except PyErr (List ℚ) :=
  match translate_coords err_if_too_far point box 0 point box with
  | .error e => .error e
  | .ok new_coords =>
    .ok (new_coords ++ List.replicate (point.length - new_coords.length) 0)

/-- The list comprehension in `shift_points_together`: translate every
non-anchor point relative to the anchor `point0`, in input order,
propagating the first raised error. -/
def map_translate (box : List ℚ) (err_if_too_far : Bool) (point0 : List ℚ) :
    List (List ℚ) → Except PyErr (List (List ℚ))
  | [] => .ok []
  | p :: ps =>
    match translate_point_near_origin (point_sub p point0) box
        err_if_too_far with
    | .error e => .error e
    | .ok q =>
      match map_translate box err_if_too_far point0 ps with
      | .error e => .error e
      | .ok qs => .ok (q :: qs)

/-- `shift_points_together`: sequences of length `<= 1` pass through
unchanged; otherwise the anchor `points[0]` maps to
`CartesianND.origin(points[0].n_dims)` and every later point is translated
near the origin relative to the anchor. -/
def shift_points_together (points : List (List ℚ)) (box : List ℚ)
    (err_if_too_far : Bool) : Except PyErr (List (List ℚ)) :=
  if points.length ≤ 1 then
    .ok points
  else
    match points with
    | [] => .ok []
    | point0 :: rest =>
      match map_translate box err_if_too_far point0 rest with
      | .error e => .error e
      | .ok shifted => .ok (List.replicate point0.length 0 :: shifted)

/-! ### Helper lemmas about the per-axis minimum-image reduction -/

lemma copysign_one_neg (x : ℚ) (hx : x ≠ 0) :
    copysign_one (-x) = -copysign_one x := by
  rcases hx.lt_or_lt with h | h
  · have h1 : ¬(-x < 0) := by linarith
    simp [copysign_one, h, h1]
  · have h1 : -x < 0 := by linarith
    have h2 : ¬(x < 0) := by linarith
    simp [copysign_one, h1, h2]

/-- The residual computed in `measure.py` is the separation minus the shift
count of `operations.py` times the side length: the two helpers perform the
same branch test and the same `sign * ceil(|sep|/side - 0.5)` computation. -/
lemma pms_eq_sub_shifts (x s : ℚ) :
    periodic_modulus_pairdist x s = x - (number_of_box_shifts x s) * s := by
  simp only [periodic_modulus_pairdist, number_of_box_shifts, copysign_one]
  by_cases h : 2 * |x| > s
  · simp only [if_pos h]
    by_cases hx : x < 0
    · simp only [if_pos hx]
      push_cast
      ring
    · simp only [if_neg hx]
      push_cast
      ring
  · simp only [if_neg h]
    push_cast
    ring

/-- For a nonnegative separation the reduction lands in `(-s/2, s/2]`. -/
lemma pms_bounds_of_nonneg (s x : ℚ) (hs : 0 < s) (hx : 0 ≤ x) :
    -(s / 2) < periodic_modulus_pairdist x s ∧
      periodic_modulus_pairdist x s ≤ s / 2 := by
  have habs : |x| = x := abs_of_nonneg hx
  have hx0 : ¬(x < 0) := not_lt.2 hx
  simp only [periodic_modulus_pairdist, copysign_one, habs, if_neg hx0]
  by_cases h : 2 * x > s
  · rw [if_pos h]
    have hsne : s ≠ 0 := ne_of_gt hs
    have h1 : x / s - 1 / 2 ≤ ((⌈x / s - 1 / 2⌉ : ℤ) : ℚ) := Int.le_ceil _
    have h2 : ((⌈x / s - 1 / 2⌉ : ℤ) : ℚ) < x / s - 1 / 2 + 1 :=
      Int.ceil_lt_add_one _
    have h1s := mul_le_mul_of_nonneg_right h1 hs.le
    have h2s := mul_lt_mul_of_pos_right h2 hs
    have e1 : (x / s - 1 / 2) * s = x - s / 2 := by
      field_simp
      ring
    have e2 : (x / s - 1 / 2 + 1) * s = x + s / 2 := by
      field_simp
      ring
    rw [e1] at h1s
    rw [e2] at h2s
    constructor <;> linarith [h1s, h2s]
  · rw [if_neg h]
    constructor <;> linarith [not_lt.1 h]

/-- The reduction is an odd function of the separation. -/
lemma pms_neg (x s : ℚ) (hs : 0 < s) :
    periodic_modulus_pairdist (-x) s = -periodic_modulus_pairdist x s := by
  rcases eq_or_ne x 0 with rfl | hx
  · simp [periodic_modulus_pairdist, not_lt.2 hs.le]
  · simp only [periodic_modulus_pairdist, abs_neg]
    by_cases h : 2 * |x| > s
    · simp only [if_pos h, copysign_one_neg x hx]
      ring
    · simp only [if_neg h]

/-- Closed range of the reduction for every separation: `[-s/2, s/2]`. -/
lemma pms_range (s x : ℚ) (hs : 0 < s) :
    -(s / 2) ≤ periodic_modulus_pairdist x s ∧
      periodic_modulus_pairdist x s ≤ s / 2 := by
  rcases le_or_lt 0 x with hx | hx
  · have h := pms_bounds_of_nonneg s x hs hx
    exact ⟨h.1.le, h.2⟩
  · have h := pms_bounds_of_nonneg s (-x) hs (by linarith)
    rw [pms_neg x s hs] at h
    constructor <;> [linarith [h.2]; linarith [h.1]]

/-- The reduction changes the separation by an integer multiple of `s`. -/
lemma pms_sub_int_mul (x s : ℚ) :
    ∃ k : ℤ, x - periodic_modulus_pairdist x s = k * s :=
  ⟨number_of_box_shifts x s, by rw [pms_eq_sub_shifts]; ring⟩

lemma pms_of_small (x s : ℚ) (h : ¬2 * |x| > s) :
    periodic_modulus_pairdist x s = x := by
  simp [periodic_modulus_pairdist, h]

/-! ### Claim theorems -/

/-- C1, counterexample: at `s = 1`, the exact half-sidelength separation
`x = -1/2` is returned unchanged, so the result is `-s/2` itself — it
neither satisfies the claimed strict lower bound `-s/2 < r` nor is it
resolved to `+s/2`. -/
theorem minimum_image_half_boundary_counterexample :
    (0 : ℚ) < 1 ∧
    periodic_modulus_pairdist (-(1 / 2)) 1 = -(1 / 2) ∧
    ¬(-((1 : ℚ) / 2) < periodic_modulus_pairdist (-(1 / 2)) 1) ∧
    periodic_modulus_pairdist (-(1 / 2) : ℚ) 1 ≠ (1 : ℚ) / 2 := by
  have heval : periodic_modulus_pairdist (-(1 / 2) : ℚ) 1 = -(1 / 2) := by
    apply pms_of_small
    rw [show |(-(1 / 2) : ℚ)| = 1 / 2 by norm_num]
    norm_num
  refine ⟨by norm_num, heval, ?_, ?_⟩ <;> rw [heval] <;> norm_num

/-- C1 (amended): for every sidelength `s > 0` and every separation `x`,
the per-axis reduction returns `r` with `-s/2 ≤ r ≤ s/2` that differs from
`x` by an integer multiple of `s`.  Exact half-sidelength boundaries are
resolved sign-preservingly: a nonnegative separation always satisfies the
strict bound `-s/2 < r` (so `x ≥ 0` congruent to `s/2` resolves to `+s/2`),
while a nonpositive separation satisfies `r < s/2` (so it resolves to
`-s/2`, never `+s/2`). -/
theorem minimum_image_range_and_mod (s x : ℚ) (hs : 0 < s) :
    (-(s / 2) ≤ periodic_modulus_pairdist x s ∧
      periodic_modulus_pairdist x s ≤ s / 2) ∧
    (∃ k : ℤ, x - periodic_modulus_pairdist x s = k * s) ∧
    (0 ≤ x → -(s / 2) < periodic_modulus_pairdist x s) ∧
    (x ≤ 0 → periodic_modulus_pairdist x s < s / 2) := by
  refine ⟨pms_range s x hs, pms_sub_int_mul x s,
    fun hx => (pms_bounds_of_nonneg s x hs hx).1, fun hx => ?_⟩
  have h := (pms_bounds_of_nonneg s (-x) hs (by linarith)).1
  rw [pms_neg x s hs] at h
  linarith

/-- Witness for C1 at `s = 1`, `x = 3/2`. -/
theorem minimum_image_range_and_mod_witness :
    (0 : ℚ) < 1 ∧
    ((-((1 : ℚ) / 2) ≤ periodic_modulus_pairdist (3 / 2) 1 ∧
        periodic_modulus_pairdist (3 / 2) 1 ≤ (1 : ℚ) / 2) ∧
      (∃ k : ℤ, (3 / 2 : ℚ) - periodic_modulus_pairdist (3 / 2) 1 = k * 1) ∧
      ((0 : ℚ) ≤ 3 / 2 → -((1 : ℚ) / 2) < periodic_modulus_pairdist (3 / 2) 1) ∧
      ((3 / 2 : ℚ) ≤ 0 → periodic_modulus_pairdist (3 / 2) 1 < (1 : ℚ) / 2)) :=
  ⟨by norm_num, minimum_image_range_and_mod 1 (3 / 2) (by norm_num)⟩

/-- C5 (confirmed): the per-axis minimum-image reduction is idempotent for
every positive sidelength. -/
theorem minimum_image_idempotent (s x : ℚ) (hs : 0 < s) :
    periodic_modulus_pairdist (periodic_modulus_pairdist x s) s =
      periodic_modulus_pairdist x s := by
  have h := pms_range s x hs
  have habs : |periodic_modulus_pairdist x s| ≤ s / 2 := abs_le.2 ⟨h.1, h.2⟩
  exact pms_of_small _ _ (not_lt.2 (by linarith))

/-- Witness for C5 at `s = 1`, `x = 11/5`. -/
theorem minimum_image_idempotent_witness :
    (0 : ℚ) < 1 ∧
    periodic_modulus_pairdist (periodic_modulus_pairdist (11 / 5) 1) 1 =
      periodic_modulus_pairdist (11 / 5) 1 :=
  ⟨by norm_num, minimum_image_idempotent 1 (11 / 5) (by norm_num)⟩

/-- C9 (confirmed): for every separation and positive sidelength, the
residual of `measure.py` equals the separation minus the signed shift count
of `operations.py` times the sidelength. -/
theorem residual_eq_sep_sub_shift_count (s x : ℚ) (hs : 0 < s) :
    periodic_modulus_pairdist x s = x - (number_of_box_shifts x s) * s :=
  pms_eq_sub_shifts x s

/-- Witness for C9 at `s = 1`, `x = 8/5`. -/
theorem residual_eq_sep_sub_shift_count_witness :
    (0 : ℚ) < 1 ∧
    periodic_modulus_pairdist (8 / 5) 1 =
      8 / 5 - (number_of_box_shifts (8 / 5) 1) * 1 :=
  ⟨by norm_num, residual_eq_sep_sub_shift_count 1 (8 / 5) (by norm_num)⟩

/-- C4 (confirmed): on a point/point dimension mismatch all four distance
functions return `NotImplemented` without raising; with matching points but
a mismatching box, the periodic functions raise `RuntimeError` with the
documented message. -/
theorem distance_dimension_mismatch_behaviour (sqrt : ℚ → ℚ)
    (point0 point1 box : List ℚ) :
    (point0.length ≠ point1.length →
      euclidean_distance_squared point0 point1 = .notImplemented ∧
      euclidean_distance sqrt point0 point1 = .notImplemented ∧
      periodic_euclidean_distance_squared point0 point1 box =
        .notImplemented ∧
      periodic_euclidean_distance sqrt point0 point1 box =
        .notImplemented) ∧
    (point0.length = point1.length → point0.length ≠ box.length →
      periodic_euclidean_distance_squared point0 point1 box =
        .raised (.runtimeError box_dims_err_msg) ∧
      periodic_euclidean_distance sqrt point0 point1 box =
        .raised (.runtimeError box_dims_err_msg)) := by
  constructor
  · intro h
    have e1 : euclidean_distance_squared point0 point1 = .notImplemented := by
      simp [euclidean_distance_squared, h]
    have e2 : periodic_euclidean_distance_squared point0 point1 box =
        .notImplemented := by
      simp [periodic_euclidean_distance_squared, h]
    exact ⟨e1, by simp [euclidean_distance, e1], e2,
      by simp [periodic_euclidean_distance, e2]⟩
  · intro h1 h2
    have e : periodic_euclidean_distance_squared point0 point1 box =
        .raised (.runtimeError box_dims_err_msg) := by
      simp only [periodic_euclidean_distance_squared]
      rw [if_neg (not_ne_iff.mpr h1), if_pos h2]
    exact ⟨e, by simp [periodic_euclidean_distance, e]⟩

/-- Witness for C4: a 1-D/2-D point pair, and a 1-D point pair with a 2-D
box. -/
theorem distance_dimension_mismatch_behaviour_witness :
    (euclidean_distance_squared [0] [0, 1] = .notImplemented ∧
      euclidean_distance id [0] [0, 1] = .notImplemented ∧
      periodic_euclidean_distance_squared [0] [0, 1] [1] =
        .notImplemented ∧
      periodic_euclidean_distance id [0] [0, 1] [1] = .notImplemented) ∧
    (periodic_euclidean_distance_squared [0] [2] [1, 1] =
        .raised (.runtimeError box_dims_err_msg) ∧
      periodic_euclidean_distance id [0] [2] [1, 1] =
        .raised (.runtimeError box_dims_err_msg)) :=
  ⟨(distance_dimension_mismatch_behaviour id [0] [0, 1] [1]).1 (by decide),
   (distance_dimension_mismatch_behaviour id [0] [2] [1, 1]).2 rfl (by decide)⟩

/-- C6 (confirmed): both approximate-equality predicates return `True`
exactly when the (periodic) squared distance is strictly below the squared
tolerance; at exact equality with the tolerance they return `False`. -/
theorem approx_eq_strict_threshold (point0 point1 box : List ℚ) (tol : ℚ)
    (hpp : point0.length = point1.length)
    (hpb : point0.length = box.length) :
    ∃ d pd : ℚ,
      euclidean_distance_squared point0 point1 = .ok d ∧
      periodic_euclidean_distance_squared point0 point1 box = .ok pd ∧
      (approx_eq point0 point1 tol = .ok true ↔ d < tol ^ 2) ∧
      (periodic_approx_eq point0 point1 box tol = .ok true ↔ pd < tol ^ 2) ∧
      (d = tol ^ 2 → approx_eq point0 point1 tol = .ok false) ∧
      (pd = tol ^ 2 → periodic_approx_eq point0 point1 box tol = .ok false) := by
  have e1 : euclidean_distance_squared point0 point1 =
      .ok (((point0.zip point1).map (fun cc => (cc.1 - cc.2) ^ 2)).sum) := by
    simp [euclidean_distance_squared, hpp]
  have e2 : periodic_euclidean_distance_squared point0 point1 box =
      .ok (((point0.zip (point1.zip box)).map
        (fun cc => (periodic_modulus_pairdist (cc.2.1 - cc.1) cc.2.2) ^ 2)).sum) := by
    simp only [periodic_euclidean_distance_squared]
    rw [if_neg (not_ne_iff.mpr hpp), if_neg (not_ne_iff.mpr hpb)]
  refine ⟨_, _, e1, e2, ?_, ?_, ?_, ?_⟩
  · simp [approx_eq, e1]
  · simp [periodic_approx_eq, e2]
  · intro h
    simp [approx_eq, e1, h, lt_self_iff_false]
  · intro h
    simp [periodic_approx_eq, e2, h, lt_self_iff_false]

/-- Witness for C6: 1-D points at distance exactly the tolerance `1`. -/
theorem approx_eq_strict_threshold_witness :
    ∃ d pd : ℚ,
      euclidean_distance_squared [0] [1] = .ok d ∧
      periodic_euclidean_distance_squared [0] [1] [3] = .ok pd ∧
      (approx_eq [0] [1] 1 = .ok true ↔ d < 1 ^ 2) ∧
      (periodic_approx_eq [0] [1] [3] 1 = .ok true ↔ pd < 1 ^ 2) ∧
      (d = 1 ^ 2 → approx_eq [0] [1] 1 = .ok false) ∧
      (pd = 1 ^ 2 → periodic_approx_eq [0] [1] [3] 1 = .ok false) :=
  approx_eq_strict_threshold [0] [1] [3] 1 rfl rfl

/-- C10 (confirmed): on a point/point dimension mismatch the squared
distance is the `NotImplemented` object, and the strict comparison against
the squared tolerance then raises `TypeError`, so both predicates crash
rather than return a boolean or the soft signal. -/
theorem approx_eq_mismatch_raises (point0 point1 box : List ℚ) (tol : ℚ)
    (h : point0.length ≠ point1.length) :
    euclidean_distance_squared point0 point1 = .notImplemented ∧
    approx_eq point0 point1 tol = .raised .typeError ∧
    periodic_approx_eq point0 point1 box tol = .raised .typeError := by
  have e1 : euclidean_distance_squared point0 point1 = .notImplemented := by
    simp [euclidean_distance_squared, h]
  have e2 : periodic_euclidean_distance_squared point0 point1 box =
      .notImplemented := by
    simp [periodic_euclidean_distance_squared, h]
  exact ⟨e1, by simp [approx_eq, e1], by simp [periodic_approx_eq, e2]⟩

/-- Witness for C10: a 1-D point against a 2-D point. -/
theorem approx_eq_mismatch_raises_witness :
    euclidean_distance_squared [0] [0, 1] = .notImplemented ∧
    approx_eq [0] [0, 1] 1 = .raised .typeError ∧
    periodic_approx_eq [0] [0, 1] [1] 1 = .raised .typeError :=
  approx_eq_mismatch_raises [0] [0, 1] [1] 1 (by decide)

/-- C8 (confirmed): box construction raises exactly when some supplied side
length is `≤ 0`; with all sides positive it succeeds and stores exactly the
supplied side lengths. -/
theorem box_sides_validation (coords : List ℚ) :
    ((∃ e, PeriodicBoxSidesND_init coords = .error e) ↔
      ∃ c ∈ coords, c ≤ 0) ∧
    ((∀ c ∈ coords, 0 < c) → PeriodicBoxSidesND_init coords = .ok coords) := by
  by_cases h : ∃ c ∈ coords, c ≤ 0
  · have hb : coords.any (fun coord => coord ≤ 0) = true := by
      rw [List.any_eq_true]
      obtain ⟨c, hc, hc0⟩ := h
      exact ⟨c, hc, by simpa using hc0⟩
    constructor
    · refine iff_of_true
        ⟨.valueError "All side lengths in the periodic box must be positive.",
          ?_⟩ h
      simp [PeriodicBoxSidesND_init, hb]
    · intro hall
      obtain ⟨c, hc, hc0⟩ := h
      exact absurd (hall c hc) (not_lt.2 hc0)
  · have hb : coords.any (fun coord => coord ≤ 0) = false := by
      rw [Bool.eq_false_iff]
      intro hb'
      rw [List.any_eq_true] at hb'
      obtain ⟨c, hc, hc0⟩ := hb'
      exact h ⟨c, hc, by simpa using hc0⟩
    constructor
    · refine iff_of_false ?_ h
      rintro ⟨e, he⟩
      simp [PeriodicBoxSidesND_init, hb] at he
    · intro _
      simp [PeriodicBoxSidesND_init, hb]

/-- Witness for C8: a valid box and an invalid box. -/
theorem box_sides_validation_witness :
    PeriodicBoxSidesND_init [(3 : ℚ), 2] = .ok [3, 2] ∧
    ∃ e, PeriodicBoxSidesND_init [(1 : ℚ), -1] = .error e :=
  ⟨(box_sides_validation [3, 2]).2 (by norm_num),
   (box_sides_validation [1, -1]).1.mpr ⟨-1, by norm_num, by norm_num⟩⟩

/-- C7, counterexample: multiplying the point `(1, 2)` by the float scalar
`0.0` does not raise; it returns the zero point. -/
theorem scale_by_zero_counterexample :
    cartesian_mul [1, 2] 0 = .ok [0, 0] ∧
    ∀ e, cartesian_mul [1, 2] 0 ≠ .raised e := by
  constructor
  · simp [cartesian_mul]
  · intro e
    simp [cartesian_mul]

lemma map_zero_mul (p : List ℚ) :
    p.map (fun coord => (0 : ℚ) * coord) = List.replicate p.length 0 := by
  induction p with
  | nil => rfl
  | cons a t ih => simp [ih, List.replicate_succ]

/-- C7 (amended): scaling a point by the float scalar zero succeeds (no
error is raised) and returns the all-zero point of the same
dimensionality; `__rmul__` agrees with `__mul__`. -/
theorem scale_by_zero_returns_zero_point (p : List ℚ) :
    cartesian_mul p 0 = .ok (List.replicate p.length 0) ∧
    cartesian_rmul p 0 = .ok (List.replicate p.length 0) := by
  have h : cartesian_mul p 0 = .ok (List.replicate p.length 0) := by
    simp only [cartesian_mul, map_zero_mul]
  exact ⟨h, h⟩

/-! ### Helper lemmas about re-imaging -/

lemma getD_zipWith_eval (f : ℚ → ℚ → ℚ) (as bs : List ℚ) (i : ℕ)
    (ha : i < as.length) (hb : i < bs.length) :
    (List.zipWith f as bs).getD i 0 = f (as.getD i 0) (bs.getD i 0) := by
  rw [List.getD_eq_getElem _ _ (by rw [List.length_zipWith]; omega),
    List.getElem_zipWith, List.getD_eq_getElem _ _ ha,
    List.getD_eq_getElem _ _ hb]

/-- With the strict flag off the coordinate loop never raises and computes
the per-axis shifted coordinates. -/
lemma translate_coords_false (point box : List ℚ) (cs : List ℚ) :
    ∀ (ss : List ℚ) (i : ℕ),
      translate_coords false point box i cs ss =
        .ok (List.zipWith
          (fun c s => c - (number_of_box_shifts c s : ℚ) * s) cs ss) := by
  induction cs with
  | nil =>
    intro ss i
    cases ss <;> rfl
  | cons c cs ih =>
    intro ss i
    cases ss with
    | nil => rfl
    | cons s ss =>
      simp [translate_coords, ih]

/-- With the strict flag off and matching dimensions,
`_translate_point_near_origin` returns the per-axis shifted point. -/
lemma translate_false (point box : List ℚ) (h : point.length = box.length) :
    translate_point_near_origin point box false =
      .ok (List.zipWith
        (fun c s => c - (number_of_box_shifts c s : ℚ) * s) point box) := by
  simp only [translate_point_near_origin, translate_coords_false]
  have hlen : (List.zipWith
      (fun c s => c - (number_of_box_shifts c s : ℚ) * s) point box).length =
      point.length := by
    rw [List.length_zipWith, h, min_self]
  rw [hlen]
  simp

/-- With the strict flag off the comprehension over the non-anchor points
never raises. -/
lemma map_translate_false (box point0 : List ℚ)
    (hp0 : point0.length = box.length) (ps : List (List ℚ))
    (hdim : ∀ p ∈ ps, p.length = box.length) :
    map_translate box false point0 ps =
      .ok (ps.map (fun p => List.zipWith
        (fun c s => c - (number_of_box_shifts c s : ℚ) * s)
        (point_sub p point0) box)) := by
  induction ps with
  | nil => rfl
  | cons p ps ih =>
    have hp : (point_sub p point0).length = box.length := by
      rw [point_sub, List.length_zipWith, hdim p (List.mem_cons_self p ps),
        hp0, min_self]
    simp only [map_translate, translate_false _ _ hp,
      ih (fun q hq => hdim q (List.mem_cons_of_mem _ hq)), List.map_cons]

/-- C2, counterexample: for points `(0), (-1/2)` under a box of side `1`
the non-strict shift returns the second point unchanged at `-1/2 = -side/2`,
which does not lie in the claimed half-open interval `(-side/2, +side/2]`
(its open lower bound is violated). -/
theorem shift_points_together_interval_counterexample :
    shift_points_together [[0], [-(1 / 2)]] [1] false =
      .ok [[0], [-(1 / 2)]] ∧
    ¬(-((1 : ℚ) / 2) < -(1 / 2)) := by
  constructor
  · have hmap := map_translate_false [1] [(0 : ℚ)] rfl [[-(1 / 2)]]
      (by intro p hp; simp at hp; simp [hp])
    rw [shift_points_together, if_neg (by simp)]
    rw [hmap]
    have hnbs0 : number_of_box_shifts ((-(1 / 2) : ℚ) - 0) 1 = 0 := by
      rw [number_of_box_shifts]
      rw [if_neg ?_]
      rw [show |((-(1 / 2) : ℚ) - 0)| = 1 / 2 by norm_num]
      norm_num
    simp only [List.map_cons, List.map_nil, point_sub,
      List.zipWith_cons_cons, List.zipWith_nil_right, hnbs0,
      List.replicate_one]
    norm_num
  · norm_num

/-- C2 (amended): with the strict flag off, `shift_points_together` on
points matching a positive box returns a new sequence in which point `0`
maps to the origin and each other point `p_k` maps to `p_k - p_0` with
every coordinate `i` shifted by a whole multiple of side `i` into the
closed interval `[-side_i/2, +side_i/2]` (the lower endpoint occurs, for a
negative anchor-relative separation at an exact half-sidelength boundary);
inputs of length 0 or 1 are returned unchanged. -/
theorem shift_points_together_nonstrict (points : List (List ℚ))
    (box : List ℚ) (hbox : ∀ s ∈ box, 0 < s)
    (hdim : ∀ p ∈ points, p.length = box.length) :
    ∃ res, shift_points_together points box false = .ok res ∧
      res.length = points.length ∧
      (points.length ≤ 1 → res = points) ∧
      ∀ point0 rest, points = point0 :: rest → rest ≠ [] →
        res.headD [] = List.replicate point0.length 0 ∧
        ∀ k, k < rest.length → ∀ i, i < box.length →
          ∃ m : ℤ,
            (res.getD (k + 1) []).getD i 0 =
              (rest.getD k []).getD i 0 - point0.getD i 0 - m * box.getD i 0 ∧
            -(box.getD i 0 / 2) ≤ (res.getD (k + 1) []).getD i 0 ∧
            (res.getD (k + 1) []).getD i 0 ≤ box.getD i 0 / 2 := by
  by_cases hlen : points.length ≤ 1
  · refine ⟨points, ?_, rfl, fun _ => rfl, ?_⟩
    · rw [shift_points_together.eq_def, if_pos hlen]
    · rintro point0 rest rfl hrest
      cases rest with
      | nil => exact absurd rfl hrest
      | cons a t => simp at hlen
  · obtain ⟨point0, rest, rfl⟩ : ∃ p0 r, points = p0 :: r := by
      cases points with
      | nil => simp at hlen
      | cons a t => exact ⟨a, t, rfl⟩
    have hp0 : point0.length = box.length :=
      hdim point0 (List.mem_cons_self point0 rest)
    have hdims : ∀ p ∈ rest, p.length = box.length :=
      fun p hp => hdim p (List.mem_cons_of_mem _ hp)
    have hmap := map_translate_false box point0 hp0 rest hdims
    refine ⟨List.replicate point0.length 0 ::
      rest.map (fun p => List.zipWith
        (fun c s => c - (number_of_box_shifts c s : ℚ) * s)
        (point_sub p point0) box), ?_, by simp, fun h => absurd h hlen, ?_⟩
    · rw [shift_points_together.eq_def, if_neg hlen]
      simp only [hmap]
    · rintro p0' rest' heq hne
      obtain ⟨rfl, rfl⟩ : point0 = p0' ∧ rest = rest' := by
        injection heq with h1 h2
        exact ⟨h1, h2⟩
      refine ⟨rfl, ?_⟩
      intro k hk i hi
      have hrk : (point0 :: rest).tail.getD k [] = rest.getD k [] := rfl
      have hrklen : (rest.getD k []).length = box.length := by
        rw [List.getD_eq_getElem _ _ hk]
        exact hdims _ (List.getElem_mem hk)
      have hsub_len : (point_sub (rest.getD k []) point0).length =
          box.length := by
        rw [point_sub, List.length_zipWith, hrklen, hp0, min_self]
      have hget : (List.replicate point0.length (0 : ℚ) ::
          rest.map (fun p => List.zipWith
            (fun c s => c - (number_of_box_shifts c s : ℚ) * s)
            (point_sub p point0) box)).getD (k + 1) [] =
          List.zipWith (fun c s => c - (number_of_box_shifts c s : ℚ) * s)
            (point_sub (rest.getD k []) point0) box := by
        rw [List.getD_cons_succ,
          List.getD_eq_getElem _ _ (by simpa using hk), List.getElem_map,
          List.getD_eq_getElem _ _ hk]
      have hsubD : (point_sub (rest.getD k []) point0).getD i 0 =
          (rest.getD k []).getD i 0 - point0.getD i 0 := by
        rw [point_sub]
        exact getD_zipWith_eval _ _ _ i (by omega) (by omega)
      have hval : ((List.replicate point0.length (0 : ℚ) ::
          rest.map (fun p => List.zipWith
            (fun c s => c - (number_of_box_shifts c s : ℚ) * s)
            (point_sub p point0) box)).getD (k + 1) []).getD i 0 =
          ((rest.getD k []).getD i 0 - point0.getD i 0) -
            (number_of_box_shifts
              ((rest.getD k []).getD i 0 - point0.getD i 0)
              (box.getD i 0) : ℚ) * box.getD i 0 := by
        rw [hget, getD_zipWith_eval _ _ _ i (by omega) hi, hsubD]
      have hs : 0 < box.getD i 0 := by
        rw [List.getD_eq_getElem _ _ hi]
        exact hbox _ (List.getElem_mem hi)
      refine ⟨number_of_box_shifts
        ((rest.getD k []).getD i 0 - point0.getD i 0) (box.getD i 0),
        by rw [hval], ?_, ?_⟩
      · rw [hval, ← pms_eq_sub_shifts]
        exact (pms_range _ _ hs).1
      · rw [hval, ← pms_eq_sub_shifts]
        exact (pms_range _ _ hs).2

/-- Witness for C2 at the specification's example: three 2-D points under
the unit box. -/
theorem shift_points_together_nonstrict_witness :
    (∀ s ∈ [(1 : ℚ), 1], 0 < s) ∧
    (∀ p ∈ [[(1 : ℚ) / 10, 1 / 10], [1 / 2, 1 / 10], [1 / 2, 9 / 10]],
      p.length = [(1 : ℚ), 1].length) ∧
    ∃ res, shift_points_together
        [[(1 : ℚ) / 10, 1 / 10], [1 / 2, 1 / 10], [1 / 2, 9 / 10]]
        [(1 : ℚ), 1] false = .ok res ∧
      res.length =
        [[(1 : ℚ) / 10, 1 / 10], [1 / 2, 1 / 10], [1 / 2, 9 / 10]].length ∧
      ([[(1 : ℚ) / 10, 1 / 10], [1 / 2, 1 / 10],
          [1 / 2, 9 / 10]].length ≤ 1 →
        res = [[(1 : ℚ) / 10, 1 / 10], [1 / 2, 1 / 10], [1 / 2, 9 / 10]]) ∧
      ∀ point0 rest,
        [[(1 : ℚ) / 10, 1 / 10], [1 / 2, 1 / 10], [1 / 2, 9 / 10]] =
          point0 :: rest → rest ≠ [] →
        res.headD [] = List.replicate point0.length 0 ∧
        ∀ k, k < rest.length → ∀ i, i < [(1 : ℚ), 1].length →
          ∃ m : ℤ,
            (res.getD (k + 1) []).getD i 0 =
              (rest.getD k []).getD i 0 - point0.getD i 0 -
                m * [(1 : ℚ), 1].getD i 0 ∧
            -([(1 : ℚ), 1].getD i 0 / 2) ≤ (res.getD (k + 1) []).getD i 0 ∧
            (res.getD (k + 1) []).getD i 0 ≤ [(1 : ℚ), 1].getD i 0 / 2 :=
  ⟨by norm_num, by norm_num,
    shift_points_together_nonstrict _ _ (by norm_num) (by norm_num)⟩

/-! ### Helper lemmas about strict-mode re-imaging -/

/-- In strict mode the coordinate loop succeeds when no axis needs more
than one whole-cell shift, and computes the same coordinates as the
non-strict loop. -/
lemma translate_coords_true_ok (point box cs : List ℚ) :
    ∀ (ss : List ℚ) (i : ℕ),
      (∀ j, j < cs.length → j < ss.length →
        ¬1 < |number_of_box_shifts (cs.getD j 0) (ss.getD j 0)|) →
      translate_coords true point box i cs ss =
        .ok (List.zipWith
          (fun c s => c - (number_of_box_shifts c s : ℚ) * s) cs ss) := by
  induction cs with
  | nil =>
    intro ss i _
    cases ss <;> rfl
  | cons c cs ih =>
    intro ss i hno
    cases ss with
    | nil => rfl
    | cons s ss =>
      have h0 := hno 0 (by simp) (by simp)
      simp only [List.getD_cons_zero] at h0
      have hrec := ih ss (i + 1) (fun j hj1 hj2 => by
        have h := hno (j + 1) (by simpa using hj1) (by simpa using hj2)
        rwa [List.getD_cons_succ, List.getD_cons_succ] at h)
      simp [translate_coords, h0, hrec]

/-- In strict mode an offending axis forces the coordinate loop to raise. -/
lemma translate_coords_true_error_of_offender (point box cs : List ℚ) :
    ∀ (ss : List ℚ) (i : ℕ),
      (∃ j, j < cs.length ∧ j < ss.length ∧
        1 < |number_of_box_shifts (cs.getD j 0) (ss.getD j 0)|) →
      ∃ e, translate_coords true point box i cs ss = .error e := by
  induction cs with
  | nil =>
    rintro ss i ⟨j, hj, -, -⟩
    simp at hj
  | cons c cs ih =>
    rintro ss i ⟨j, hj1, hj2, hoff⟩
    cases ss with
    | nil => simp at hj2
    | cons s ss =>
      by_cases hc : 1 < |number_of_box_shifts c s|
      · exact ⟨_, by simp only [translate_coords]; rw [if_pos ⟨trivial, hc⟩]⟩
      · cases j with
        | zero =>
          rw [List.getD_cons_zero, List.getD_cons_zero] at hoff
          exact absurd hoff hc
        | succ j' =>
          have hj1' : j' < cs.length := by
            simp only [List.length_cons] at hj1
            omega
          have hj2' : j' < ss.length := by
            simp only [List.length_cons] at hj2
            omega
          have hoff' : 1 < |number_of_box_shifts (cs.getD j' 0)
              (ss.getD j' 0)| := by
            rwa [List.getD_cons_succ, List.getD_cons_succ] at hoff
          obtain ⟨e, he⟩ := ih ss (i + 1) ⟨j', hj1', hj2', hoff'⟩
          refine ⟨e, ?_⟩
          simp only [translate_coords]
          rw [if_neg (fun hcc => hc hcc.2), he]

/-- In strict mode a raised error identifies the first offending axis: it
carries the interpolated point and box, the absolute coordinate index, and
an offending shift count. -/
lemma translate_coords_true_error_shape (point box cs : List ℚ) :
    ∀ (ss : List ℚ) (i : ℕ) (e : PyErr),
      translate_coords true point box i cs ss = .error e →
      ∃ j, j < cs.length ∧ j < ss.length ∧
        1 < |number_of_box_shifts (cs.getD j 0) (ss.getD j 0)| ∧
        e = .tooFarError point box (i + j)
          (number_of_box_shifts (cs.getD j 0) (ss.getD j 0)) := by
  induction cs with
  | nil =>
    intro ss i e h
    cases ss <;> simp [translate_coords] at h
  | cons c cs ih =>
    intro ss i e h
    cases ss with
    | nil => simp [translate_coords] at h
    | cons s ss =>
      by_cases hc : 1 < |number_of_box_shifts c s|
      · simp only [translate_coords] at h
        rw [if_pos ⟨trivial, hc⟩] at h
        injection h with he
        refine ⟨0, by simp, by simp, by simpa using hc, ?_⟩
        rw [← he]
        simp
      · simp only [translate_coords] at h
        rw [if_neg (fun hcc => hc hcc.2)] at h
        cases hrec : translate_coords true point box (i + 1) cs ss with
        | error e' =>
          rw [hrec] at h
          injection h with he'
          obtain ⟨j, hj1, hj2, hoff, he⟩ := ih ss (i + 1) e' hrec
          refine ⟨j + 1, by simpa using hj1, by simpa using hj2, ?_, ?_⟩
          · rwa [List.getD_cons_succ, List.getD_cons_succ]
          · rw [← he', he, List.getD_cons_succ, List.getD_cons_succ]
            congr 1
            omega
        | ok rest =>
          rw [hrec] at h
          simp at h

lemma translate_true_ok (point box : List ℚ)
    (hno : ∀ j, j < point.length → j < box.length →
      ¬1 < |number_of_box_shifts (point.getD j 0) (box.getD j 0)|) :
    ∃ r, translate_point_near_origin point box true = .ok r := by
  have h := translate_coords_true_ok point box point box 0 hno
  exact ⟨_, by simp only [translate_point_near_origin, h]; rfl⟩

lemma translate_true_error_of_offender (point box : List ℚ)
    (hoff : ∃ j, j < point.length ∧ j < box.length ∧
      1 < |number_of_box_shifts (point.getD j 0) (box.getD j 0)|) :
    ∃ e, translate_point_near_origin point box true = .error e := by
  obtain ⟨e, he⟩ :=
    translate_coords_true_error_of_offender point box point box 0 hoff
  exact ⟨e, by simp only [translate_point_near_origin, he]⟩

lemma translate_true_error_shape (point box : List ℚ) (e : PyErr)
    (h : translate_point_near_origin point box true = .error e) :
    ∃ j, j < point.length ∧ j < box.length ∧
      1 < |number_of_box_shifts (point.getD j 0) (box.getD j 0)| ∧
      e = .tooFarError point box j
        (number_of_box_shifts (point.getD j 0) (box.getD j 0)) := by
  cases hrec : translate_coords true point box 0 point box with
  | ok cs =>
    simp only [translate_point_near_origin, hrec] at h
    simp at h
  | error e' =>
    simp only [translate_point_near_origin, hrec] at h
    injection h with h'
    obtain ⟨j, hj1, hj2, hoff, he⟩ :=
      translate_coords_true_error_shape point box point box 0 e' hrec
    exact ⟨j, hj1, hj2, hoff, by rw [← h', he, Nat.zero_add]⟩

lemma map_translate_true_ok (box point0 : List ℚ) (ps : List (List ℚ))
    (hno : ∀ p ∈ ps, ∀ j, j < (point_sub p point0).length → j < box.length →
      ¬1 < |number_of_box_shifts ((point_sub p point0).getD j 0)
        (box.getD j 0)|) :
    ∃ rs, map_translate box true point0 ps = .ok rs := by
  induction ps with
  | nil => exact ⟨[], rfl⟩
  | cons p ps ih =>
    obtain ⟨r, hr⟩ := translate_true_ok (point_sub p point0) box
      (hno p (List.mem_cons_self p ps))
    obtain ⟨rs, hrs⟩ := ih (fun q hq => hno q (List.mem_cons_of_mem _ hq))
    exact ⟨r :: rs, by simp only [map_translate, hr, hrs]⟩

lemma map_translate_true_error_of_offender (box point0 : List ℚ)
    (ps : List (List ℚ)) (p : List ℚ) (hp : p ∈ ps)
    (hoff : ∃ j, j < (point_sub p point0).length ∧ j < box.length ∧
      1 < |number_of_box_shifts ((point_sub p point0).getD j 0)
        (box.getD j 0)|) :
    ∃ e, map_translate box true point0 ps = .error e := by
  induction ps with
  | nil => cases hp
  | cons q ps ih =>
    cases hq : translate_point_near_origin (point_sub q point0) box true with
    | error e => exact ⟨e, by simp only [map_translate, hq]⟩
    | ok r =>
      rcases List.mem_cons.1 hp with rfl | hp'
      · obtain ⟨e, he⟩ := translate_true_error_of_offender _ box hoff
        rw [hq] at he
        exact absurd he (by simp)
      · obtain ⟨e, he⟩ := ih hp'
        exact ⟨e, by simp only [map_translate, hq, he]⟩

lemma map_translate_true_error_shape (box point0 : List ℚ)
    (ps : List (List ℚ)) (e : PyErr)
    (h : map_translate box true point0 ps = .error e) :
    ∃ p ∈ ps, ∃ j, j < (point_sub p point0).length ∧ j < box.length ∧
      1 < |number_of_box_shifts ((point_sub p point0).getD j 0)
        (box.getD j 0)| ∧
      e = .tooFarError (point_sub p point0) box j
        (number_of_box_shifts ((point_sub p point0).getD j 0)
          (box.getD j 0)) := by
  induction ps with
  | nil => simp [map_translate] at h
  | cons q ps ih =>
    cases hq : translate_point_near_origin (point_sub q point0) box true with
    | error e' =>
      simp only [map_translate, hq] at h
      injection h with h'
      obtain ⟨j, hj1, hj2, hoff, he⟩ :=
        translate_true_error_shape (point_sub q point0) box e' hq
      exact ⟨q, List.mem_cons_self q ps, j, hj1, hj2, hoff, by rw [← h', he]⟩
    | ok r =>
      simp only [map_translate, hq] at h
      cases hrest : map_translate box true point0 ps with
      | error e'' =>
        rw [hrest] at h
        injection h with he''
        obtain ⟨p, hp, rest⟩ := ih (he'' ▸ hrest)
        exact ⟨p, List.mem_cons_of_mem _ hp, rest⟩
      | ok rs =>
        rw [hrest] at h
        simp at h

/-- C3 (confirmed): with the strict flag on, `shift_points_together` raises
exactly when, for some non-anchor point and some axis, the signed shift
count `n = sign(sep) * ceil(|sep|/side - 0.5)` of the anchor-relative
separation satisfies `|n| > 1`; the raised error carries the
anchor-relative offending point, the box, the axis index and the shift
count; when no axis of any point needs `|n| > 1` it returns normally. -/
theorem shift_points_together_strict (points : List (List ℚ))
    (box : List ℚ) (hdim : ∀ p ∈ points, p.length = box.length) :
    ((∃ e, shift_points_together points box true = .error e) ↔
      ∃ p ∈ points.tail, ∃ i, i < box.length ∧
        1 < |number_of_box_shifts
          (p.getD i 0 - (points.headD []).getD i 0) (box.getD i 0)|) ∧
    ((¬∃ p ∈ points.tail, ∃ i, i < box.length ∧
        1 < |number_of_box_shifts
          (p.getD i 0 - (points.headD []).getD i 0) (box.getD i 0)|) →
      ∃ res, shift_points_together points box true = .ok res) ∧
    (∀ e, shift_points_together points box true = .error e →
      ∃ pt i_coord n_shifts,
        e = .tooFarError pt box i_coord n_shifts ∧
        i_coord < box.length ∧ 1 < |n_shifts| ∧
        (∃ p ∈ points.tail, pt = point_sub p (points.headD [])) ∧
        n_shifts = number_of_box_shifts (pt.getD i_coord 0)
          (box.getD i_coord 0)) := by
  by_cases hlen : points.length ≤ 1
  · have hok : shift_points_together points box true = .ok points := by
      rw [shift_points_together.eq_def, if_pos hlen]
    have htail : points.tail = [] := by
      cases points with
      | nil => rfl
      | cons a t =>
        cases t with
        | nil => rfl
        | cons b t' => simp at hlen
    refine ⟨?_, fun _ => ⟨points, hok⟩, ?_⟩
    · rw [htail]
      simp [hok]
    · intro e he
      rw [hok] at he
      simp at he
  · obtain ⟨point0, rest, rfl⟩ : ∃ p0 r, points = p0 :: r := by
      cases points with
      | nil => simp at hlen
      | cons a t => exact ⟨a, t, rfl⟩
    have hp0 : point0.length = box.length :=
      hdim point0 (List.mem_cons_self point0 rest)
    have hdims : ∀ p ∈ rest, p.length = box.length :=
      fun p hp => hdim p (List.mem_cons_of_mem _ hp)
    have hsub_len : ∀ p ∈ rest, (point_sub p point0).length = box.length :=
      fun p hp => by
        rw [point_sub, List.length_zipWith, hdims p hp, hp0, min_self]
    have hsubD : ∀ p ∈ rest, ∀ i, i < box.length →
        (point_sub p point0).getD i 0 = p.getD i 0 - point0.getD i 0 :=
      fun p hp i hi => by
        rw [point_sub]
        exact getD_zipWith_eval _ _ _ i (by rw [hdims p hp]; exact hi)
          (by rw [hp0]; exact hi)
    refine ⟨⟨?_, ?_⟩, ?_, ?_⟩
    · rintro ⟨e, he⟩
      rw [shift_points_together.eq_def, if_neg hlen] at he
      cases hmt : map_translate box true point0 rest with
      | error e' =>
        obtain ⟨p, hp, j, hj1, hj2, hoff, -⟩ :=
          map_translate_true_error_shape box point0 rest e' hmt
        simp only [List.tail_cons, List.headD_cons]
        exact ⟨p, hp, j, hj2, by rw [← hsubD p hp j hj2]; exact hoff⟩
      | ok rs =>
        simp only [hmt] at he
        simp at he
    · intro hoff
      simp only [List.tail_cons, List.headD_cons] at hoff
      obtain ⟨p, hp, i, hi, hgt⟩ := hoff
      obtain ⟨e, he⟩ := map_translate_true_error_of_offender box point0 rest
        p hp ⟨i, by rw [hsub_len p hp]; exact hi, hi,
          by rw [hsubD p hp i hi]; exact hgt⟩
      refine ⟨e, ?_⟩
      rw [shift_points_together.eq_def, if_neg hlen]
      simp only [he]
    · intro hno
      simp only [List.tail_cons, List.headD_cons] at hno
      have hno' : ∀ p ∈ rest, ∀ j, j < (point_sub p point0).length →
          j < box.length →
          ¬1 < |number_of_box_shifts ((point_sub p point0).getD j 0)
            (box.getD j 0)| := by
        intro p hp j hj1 hj2 hgt
        rw [hsubD p hp j hj2] at hgt
        exact hno ⟨p, hp, j, hj2, hgt⟩
      obtain ⟨rs, hrs⟩ := map_translate_true_ok box point0 rest hno'
      refine ⟨List.replicate point0.length 0 :: rs, ?_⟩
      rw [shift_points_together.eq_def, if_neg hlen]
      simp only [hrs]
    · intro e he
      rw [shift_points_together.eq_def, if_neg hlen] at he
      cases hmt : map_translate box true point0 rest with
      | ok rs =>
        simp only [hmt] at he
        simp at he
      | error e' =>
        simp only [hmt] at he
        injection he with he'
        obtain ⟨p, hp, j, hj1, hj2, hoff, hshape⟩ :=
          map_translate_true_error_shape box point0 rest e' hmt
        refine ⟨point_sub p point0, j,
          number_of_box_shifts ((point_sub p point0).getD j 0)
            (box.getD j 0), ?_, hj2, hoff, ?_, rfl⟩
        · rw [← he', hshape]
        · simp only [List.tail_cons, List.headD_cons]
          exact ⟨p, hp, rfl⟩

/-- Witness for C3 at the repository's strict-mode test: the third point's
`y`-offset of `1.8` under the unit box needs two whole-cell shifts, so the
strict call raises. -/
theorem shift_points_together_strict_witness :
    (∀ p ∈ [[(1 : ℚ) / 10, 1 / 10], [1 / 2, 1 / 10], [1 / 2, 19 / 10]],
      p.length = [(1 : ℚ), 1].length) ∧
    ∃ e, shift_points_together
      [[(1 : ℚ) / 10, 1 / 10], [1 / 2, 1 / 10], [1 / 2, 19 / 10]]
      [(1 : ℚ), 1] true = .error e := by
  constructor
  · norm_num
  · apply (shift_points_together_strict _ _ (by norm_num)).1.mpr
    refine ⟨[1 / 2, 19 / 10], by simp, 1, by simp, ?_⟩
    simp only [List.headD_cons, List.getD_cons_succ, List.getD_cons_zero]
    rw [show (19 : ℚ) / 10 - 1 / 10 = 9 / 5 by norm_num]
    rw [show number_of_box_shifts (9 / 5 : ℚ) 1 = 2 from ?_]
    · norm_num
    · rw [number_of_box_shifts]
      rw [if_pos ?_]
      · rw [show |(9 / 5 : ℚ)| = 9 / 5 by norm_num,
          if_neg (by norm_num : ¬(9 / 5 : ℚ) < 0)]
        norm_num [Int.ceil_eq_iff]
      · rw [show |(9 / 5 : ℚ)| = 9 / 5 by norm_num]
        norm_num

end Cartesian
